import Mathlib

/-
Verification of the taxonomy-graph core of the automation-skill-gaps
repository: the depth resolver (`calculate_depth` in
scripts/esco/add_skill_levels.py), the path enumerator (`get_all_paths` in
scripts/esco/map_skill_hierarchy_paths.py), the two edge-index builders
(`build_parent_map`, `load_hierarchy`), and the label / path formatting
logic.

The Python functions are embedded as executable Lean functions.  Mutable
state (the memo dictionary, the visited set, the printed diagnostics) is
threaded explicitly; the possibly non-terminating recursion of
`calculate_depth` and `get_all_paths` is modelled with an explicit fuel
parameter (`none` = fuel exhausted), together with a proof that a fuel
bound derived from the number of recorded children always suffices.
-/

/-- Edge index: association list from a child id to its recorded parents.
The parent collection is a `List String`; `build_parent_map` keeps it
duplicate-free (Python `set`), `load_hierarchy` appends (Python `list`). -/
abbrev PMap := List (String × List String)

/-- Memoization table of the depth resolver (Python dict, modelled as an
association list where the most recent binding shadows older ones). -/
abbrev Memo := List (String × Nat)

/-- Lookup of a child's recorded parents; a child with no entry has no
parents (Python: `skill_id not in parent_map or not parent_map[skill_id]`
collapses both situations to the empty collection). -/
def parentsOf (pm : PMap) (id : String) : List String :=
  match pm with
  | [] => []
  | (k, ps) :: rest => if k = id then ps else parentsOf rest id

/-- Lookup in the memo table (Python: `skill_id in memo` / `memo[skill_id]`). -/
def memoLookup (memo : Memo) (id : String) : Option Nat :=
  match memo with
  | [] => none
  | (k, d) :: rest => if k = id then some d else memoLookup rest id

/-- Insertion of one edge with set semantics: the parent is added to the
child's collection only when not already present
(`parent_map[child_id].add(parent_id)` on a `defaultdict(set)`). -/
def addEdgeSet (m : PMap) (c p : String) : PMap :=
  match m with
  | [] => [(c, [p])]
  | (k, ps) :: rest =>
    if k = c then (k, if p ∈ ps then ps else ps ++ [p]) :: rest
    else (k, ps) :: addEdgeSet rest c p

/-- Edge-index builder of add_skill_levels.py (`build_parent_map`): folds
the edge stream into a child-to-parents map with set semantics. -/
def build_parent_map (edges : List (String × String)) : PMap :=
  edges.foldl (fun m e => addEdgeSet m e.1 e.2) []

/-- Insertion of one edge with list semantics: the parent is appended
unconditionally (`child_to_parents[child_id].append(parent_id)` on a
`defaultdict(list)`). -/
def addEdgeList (m : PMap) (c p : String) : PMap :=
  match m with
  | [] => [(c, [p])]
  | (k, ps) :: rest =>
    if k = c then (k, ps ++ [p]) :: rest
    else (k, ps) :: addEdgeList rest c p

/-- Edge-index builder of map_skill_hierarchy_paths.py (`load_hierarchy`):
folds the edge stream into a child-to-parents map with list semantics. -/
def load_hierarchy (edges : List (String × String)) : PMap :=
  edges.foldl (fun m e => addEdgeList m e.1 e.2) []

/-- Diagnostic message printed by the depth resolver on a cycle
(`print(f"Warning: Cycle detected at {skill_id}")`). -/
def cycleWarning (id : String) : String := "Warning: Cycle detected at " ++ id

/-- Result of one `calculate_depth` call: the returned depth together with
the state of the mutable structures after the call (memo table, visited
set, and the log of printed diagnostics). -/
structure DepthRes where
  depth : Nat
  memo : Memo
  visited : List String
  diags : List String
deriving Repr, DecidableEq

/-- Depth resolver of add_skill_levels.py (`calculate_depth`).  The first
argument is fuel; `none` means the fuel was exhausted before the Python
recursion would have returned.  The body mirrors the source line by line:
memo hit, cycle guard (returns 1 and prints a warning, without memoizing),
root base case (memoizes 1), and otherwise the loop over the parents that
threads the shared memo/visited/diagnostics state, folds the running
maximum, then backtracks (`visited.remove`) and memoizes `max + 1`. -/
def calculate_depth : Nat → String → PMap → Memo → List String → List String → Option DepthRes
  | 0, _, _, _, _, _ => none
  | fuel+1, skill_id, pm, memo, visited, diags =>
    match memoLookup memo skill_id with
    | some d => some ⟨d, memo, visited, diags⟩
    | none =>
      if skill_id ∈ visited then
        some ⟨1, memo, visited, diags ++ [cycleWarning skill_id]⟩
      else if parentsOf pm skill_id = [] then
        some ⟨1, (skill_id, 1) :: memo, visited, diags⟩
      else
        match (parentsOf pm skill_id).foldl
            (fun (st : Option DepthRes) (p : String) =>
              match st with
              | none => none
              | some r =>
                match calculate_depth fuel p pm r.memo r.visited r.diags with
                | none => none
                | some r2 => some ⟨Nat.max r.depth r2.depth, r2.memo, r2.visited, r2.diags⟩)
            (some ⟨0, memo, skill_id :: visited, diags⟩) with
        | none => none
        | some r =>
          some ⟨r.depth + 1, (skill_id, r.depth + 1) :: r.memo, r.visited.erase skill_id, r.diags⟩

/-- One iteration of the parent loop of `calculate_depth`, named so that
lemmas can speak about the fold. -/
def depthStep (fuel : Nat) (pm : PMap) (st : Option DepthRes) (p : String) : Option DepthRes :=
  match st with
  | none => none
  | some r =>
    match calculate_depth fuel p pm r.memo r.visited r.diags with
    | none => none
    | some r2 => some ⟨Nat.max r.depth r2.depth, r2.memo, r2.visited, r2.diags⟩

/-- Number of recorded children not yet on the recursion path: the measure
along which the recursion of both resolvers makes progress. -/
def unvisitedCount (pm : PMap) (visited : List String) : Nat :=
  ((pm.map Prod.fst).filter (fun k => decide (k ∉ visited))).length

/-- Fuel that always suffices for a top-level query (one more than the
number of recorded children). -/
def fuelBound (pm : PMap) : Nat := (pm.map Prod.fst).length + 1

/-- Top-level depth query as performed per skill row by `add_level_column`:
`calculate_depth(skill_id, parent_map, memo, set())` with a fresh memo
table and an empty recursion-path set. -/
def depthQ (pm : PMap) (id : String) : Nat :=
  match calculate_depth (fuelBound pm) id pm [] [] [] with
  | some r => r.depth
  | none => 0

/-- Path enumerator of map_skill_hierarchy_paths.py (`get_all_paths`),
with fuel.  Mirrors the source: cycle guard and root case both return the
accumulated path as the single completed result; otherwise each parent
branch is explored with the path extended by that parent and with a
branch-local copy of the visited set (`visited.copy()` after
`visited.add(skill_id)`, modelled as `skill_id :: visited` handed to every
branch independently), and the branch results are concatenated. -/
def get_all_paths : Nat → String → PMap → List String → List String → Option (List (List String))
  | 0, _, _, _, _ => none
  | fuel+1, skill_id, ctp, current_path, visited =>
    if skill_id ∈ visited then
      some [current_path]
    else if parentsOf ctp skill_id = [] then
      some [current_path]
    else
      (parentsOf ctp skill_id).foldl
        (fun (st : Option (List (List String))) (p : String) =>
          match st with
          | none => none
          | some acc =>
            match get_all_paths fuel p ctp (current_path ++ [p]) (skill_id :: visited) with
            | none => none
            | some ps => some (acc ++ ps))
        (some [])

/-- One iteration of the parent loop of `get_all_paths`. -/
def pathStep (fuel : Nat) (ctp : PMap) (current_path visited' : List String)
    (st : Option (List (List String))) (p : String) : Option (List (List String)) :=
  match st with
  | none => none
  | some acc =>
    match get_all_paths fuel p ctp (current_path ++ [p]) visited' with
    | none => none
    | some ps => some (acc ++ ps)

/-- Top-level path query as performed per skill row
(`get_all_paths(skill_id, child_to_parents)` with the default arguments
`current_path = [skill_id]`, `visited = set()`). -/
def get_all_paths_query (skill_id : String) (ctp : PMap) : Option (List (List String)) :=
  get_all_paths (fuelBound ctp) skill_id ctp [skill_id] []

/-- Label lookup with fallback to the raw identifier
(`labels.get(node_id, node_id)` in `map_skill_hierarchies`). -/
def labelsGet (labels : List (String × String)) (id : String) : String :=
  match labels with
  | [] => id
  | (k, v) :: rest => if k = id then v else labelsGet rest id

/-- Path formatter of `map_skill_hierarchies`: label of every node of the
path, joined with the separator (`" ; ".join(path_labels)`). -/
def hierarchy_path (labels : List (String × String)) (path : List String) : String :=
  String.intercalate " ; " (path.map (labelsGet labels))

/-- Mathematical depth with a fuel bound: the unique function satisfying
the specification recurrence on graphs admitting a rank function, used as
the reference value of the depth resolver. -/
def mdepthF (pm : PMap) : Nat → String → Nat
  | 0, _ => 1
  | fuel+1, id =>
    match parentsOf pm id with
    | [] => 1
    | ps => (ps.foldl (fun acc p => Nat.max acc (mdepthF pm fuel p)) 0) + 1

/-- Acyclicity of the edge index, witnessed by a rank function that
strictly decreases from a child to each of its parents. -/
def Ranked (pm : PMap) (rank : String → Nat) : Prop :=
  ∀ c p, p ∈ parentsOf pm c → rank p < rank c

/-- Reference depth of a node of a ranked edge index. -/
def mdepth (pm : PMap) (rank : String → Nat) (id : String) : Nat :=
  mdepthF pm (rank id + 1) id

/-- A memo table is good when every cached value is the reference depth of
its node. -/
def GoodMemo (pm : PMap) (rank : String → Nat) (memo : Memo) : Prop :=
  ∀ id d, memoLookup memo id = some d → d = mdepth pm rank id

/- Concrete scenarios used by the claims. -/

/-- Cycle scenario of the spec: edges X to Y and Y to X (child to parent),
edge index built by `build_parent_map`. -/
def pmXY : PMap := build_parent_map [("X", "Y"), ("Y", "X")]

/-- Diamond scenario edge stream. -/
def edgesD : List (String × String) := [("B", "A"), ("C", "A"), ("D", "B"), ("D", "C")]

/-- Diamond edge index for the depth resolver. -/
def pmD : PMap := build_parent_map edgesD

/-- Diamond edge index for the path enumerator. -/
def ctpD : PMap := load_hierarchy edgesD

/-- Cyclic edge index (with list semantics) for the path enumerator. -/
def ctpXY : PMap := load_hierarchy [("X", "Y"), ("Y", "X")]

/-- Edge index with one cyclic parent branch (through P1) and one clean
parent branch (through P2) below the common child N. -/
def ctpW : PMap := load_hierarchy [("N", "P1"), ("N", "P2"), ("P1", "N"), ("P2", "R")]

/-- Cyclic edge index on which the depth resolver is sensitive to the
iteration order of the parent collection of A. -/
def cpm1 : PMap := [("A", ["X", "B"]), ("X", ["P"]), ("P", ["B", "R"]), ("B", ["P"])]

/-- Same edge index as `cpm1` with the parents of A enumerated in the
opposite order. -/
def cpm2 : PMap := [("A", ["B", "X"]), ("X", ["P"]), ("P", ["B", "R"]), ("B", ["P"])]

/-- Chain edge index with the single edge B to A, used as a witness. -/
def pmChain : PMap := [("B", ["A"])]

/-- Rank function for `pmChain`. -/
def rankChain (s : String) : Nat := if s = "B" then 1 else 0

/-- Label table of the label scenario. -/
def demoLabels : List (String × String) := [("A", "Root Skill")]

/-- Acyclic two-parent index used as a witness of order invariance. -/
def pm1w : PMap := [("B", ["A", "C"])]

/-- Same index as `pm1w` with the parents of B enumerated in the opposite
order. -/
def pm2w : PMap := [("B", ["C", "A"])]

/-- Label table lookup without the fallback (Python `id in labels` /
`labels[id]`), used to state what `labelsGet` falls back on. -/
def labelFind (labels : List (String × String)) (id : String) : Option String :=
  match labels with
  | [] => none
  | (k, v) :: rest => if k = id then some v else labelFind rest id

/- Theorems. -/

/-- Unfolding of `calculate_depth` at positive fuel, phrased with the
named loop step. -/
theorem calculate_depth_succ (fuel : Nat) (skill_id : String) (pm : PMap) (memo : Memo)
    (visited diags : List String) :
    calculate_depth (fuel+1) skill_id pm memo visited diags =
      match memoLookup memo skill_id with
      | some d => some ⟨d, memo, visited, diags⟩
      | none =>
        if skill_id ∈ visited then
          some ⟨1, memo, visited, diags ++ [cycleWarning skill_id]⟩
        else if parentsOf pm skill_id = [] then
          some ⟨1, (skill_id, 1) :: memo, visited, diags⟩
        else
          match (parentsOf pm skill_id).foldl (depthStep fuel pm)
              (some ⟨0, memo, skill_id :: visited, diags⟩) with
          | none => none
          | some r =>
            some ⟨r.depth + 1, (skill_id, r.depth + 1) :: r.memo, r.visited.erase skill_id, r.diags⟩ := by
  rfl

/-- Unfolding of `get_all_paths` at positive fuel, phrased with the named
loop step. -/
theorem get_all_paths_succ (fuel : Nat) (skill_id : String) (ctp : PMap)
    (current_path visited : List String) :
    get_all_paths (fuel+1) skill_id ctp current_path visited =
      if skill_id ∈ visited then
        some [current_path]
      else if parentsOf ctp skill_id = [] then
        some [current_path]
      else
        (parentsOf ctp skill_id).foldl
          (pathStep fuel ctp current_path (skill_id :: visited)) (some []) := by
  rfl

/-- A fold of the depth loop step from an exhausted state stays exhausted. -/
theorem depthFoldl_none (fuel : Nat) (pm : PMap) (ps : List String) :
    ps.foldl (depthStep fuel pm) none = none := by
  induction ps with
  | nil => rfl
  | cons p ps ih => simpa [depthStep] using ih

/-- A child with a recorded parent appears among the keys of the index. -/
theorem mem_keys_of_parentsOf_ne_nil (pm : PMap) (id : String) (h : parentsOf pm id ≠ []) :
    id ∈ pm.map Prod.fst := by
  induction pm with
  | nil => exact absurd rfl h
  | cons e rest ih =>
    obtain ⟨k, ps⟩ := e
    by_cases hk : k = id
    · subst hk; simp
    · simp only [parentsOf, if_neg hk] at h
      simpa using Or.inr (ih h)

/-- Filtering with a stronger predicate keeps at most as many elements. -/
theorem filter_length_mono (l : List String) (p q : String → Bool)
    (h : ∀ a, p a = true → q a = true) :
    (l.filter p).length ≤ (l.filter q).length := by
  induction l with
  | nil => exact Nat.le_refl _
  | cons a l ih =>
    cases hp : p a with
    | true => simp [List.filter_cons, hp, h a hp]; omega
    | false =>
      cases hq : q a with
      | true => simp [List.filter_cons, hp, hq]; omega
      | false => simpa [List.filter_cons, hp, hq] using ih

/-- Walking onto an unvisited recorded child strictly shrinks the measure. -/
theorem unvisitedCount_cons_lt (pm : PMap) (visited : List String) (id : String)
    (hmem : id ∈ pm.map Prod.fst) (hnot : id ∉ visited) :
    unvisitedCount pm (id :: visited) < unvisitedCount pm visited := by
  unfold unvisitedCount
  generalize pm.map Prod.fst = l at hmem ⊢
  induction l with
  | nil => cases hmem
  | cons a l ih =>
    by_cases ha : a = id
    · subst ha
      have h1 : (decide (a ∉ (a :: visited))) = false := by simp
      have h2 : (decide (a ∉ visited)) = true := by simpa using hnot
      simp only [List.filter_cons, h1, h2]
      have hle : (l.filter (fun k => decide (k ∉ (a :: visited)))).length ≤
          (l.filter (fun k => decide (k ∉ visited))).length := by
        refine filter_length_mono l _ _ ?_
        intro b hb
        simp only [decide_eq_true_eq] at hb ⊢
        intro hbv; exact hb (List.mem_cons_of_mem _ hbv)
      simpa using Nat.lt_succ_of_le hle
    · have hmem' : id ∈ l := by
        rcases List.mem_cons.mp hmem with h | h
        · exact absurd h.symm ha
        · exact h
      have hiff : (decide (a ∉ (id :: visited))) = (decide (a ∉ visited)) := by
        by_cases hv : a ∈ visited
        · simp [hv]
        · simp [hv, ha, List.mem_cons]
      cases hcase : (decide (a ∉ visited)) with
      | true => simp only [List.filter_cons, hiff, hcase]; simpa using ih hmem'
      | false => simp only [List.filter_cons, hiff, hcase]; exact ih hmem'

/-- The depth loop leaves the visited set of the threaded state unchanged,
provided every recursive call does. -/
theorem depthLoop_visited (fuel : Nat) (pm : PMap)
    (IH : ∀ id memo vis diags r, calculate_depth fuel id pm memo vis diags = some r →
      r.visited = vis)
    (ps : List String) :
    ∀ (x r : DepthRes), ps.foldl (depthStep fuel pm) (some x) = some r →
      r.visited = x.visited := by
  induction ps with
  | nil =>
    intro x r h
    simp only [List.foldl_nil, Option.some.injEq] at h
    rw [← h]
  | cons p ps ih =>
    intro x r h
    rw [List.foldl_cons] at h
    cases hc : calculate_depth fuel p pm x.memo x.visited x.diags with
    | none =>
      rw [show depthStep fuel pm (some x) p = none from by simp [depthStep, hc]] at h
      rw [depthFoldl_none] at h
      cases h
    | some r2 =>
      have hstep : depthStep fuel pm (some x) p =
          some ⟨Nat.max x.depth r2.depth, r2.memo, r2.visited, r2.diags⟩ := by
        simp [depthStep, hc]
      rw [hstep] at h
      have hr := ih _ _ h
      simp only at hr
      rw [hr]
      exact IH _ _ _ _ _ hc

/-- Restoration of the recursion-path set: every successful call of the
depth resolver returns the visited set it was given (the node is added
before the parent loop and removed on backtrack; every early return leaves
the set untouched). -/
theorem calculate_depth_visited : ∀ (fuel : Nat) (id : String) (pm : PMap) (memo : Memo)
    (visited diags : List String) (r : DepthRes),
    calculate_depth fuel id pm memo visited diags = some r → r.visited = visited := by
  intro fuel
  induction fuel with
  | zero => intro id pm memo vis diags r h; cases h
  | succ fuel ih =>
    intro id pm memo vis diags r h
    rw [calculate_depth_succ] at h
    split at h
    · cases h; rfl
    · split at h
      · cases h; rfl
      · split at h
        · cases h; rfl
        · split at h
          · cases h
          · next r' heq =>
            cases h
            have hv := depthLoop_visited fuel pm (fun a b c d e hh => ih a pm b c d e hh) _ _ _ heq
            simp only at hv
            simp only [hv]
            exact List.erase_cons_head id vis

/-- The depth loop succeeds when every recursive call at the threaded
visited set succeeds. -/
theorem depthLoop_total (fuel : Nat) (pm : PMap)
    (IH : ∀ id memo vis diags, unvisitedCount pm vis < fuel →
      ∃ r, calculate_depth fuel id pm memo vis diags = some r)
    (ps : List String) :
    ∀ x : DepthRes, unvisitedCount pm x.visited < fuel →
      ∃ r, ps.foldl (depthStep fuel pm) (some x) = some r := by
  induction ps with
  | nil => exact fun x _ => ⟨x, rfl⟩
  | cons p ps ih =>
    intro x hx
    obtain ⟨r2, hr2⟩ := IH p x.memo x.visited x.diags hx
    have hv : r2.visited = x.visited :=
      calculate_depth_visited fuel p pm x.memo x.visited x.diags r2 hr2
    have hstep : depthStep fuel pm (some x) p =
        some ⟨Nat.max x.depth r2.depth, r2.memo, r2.visited, r2.diags⟩ := by
      simp [depthStep, hr2]
    rw [List.foldl_cons, hstep]
    refine ih _ ?_
    simpa [hv] using hx

/-- Totality of the depth resolver: fuel exceeding the number of recorded
children not yet on the recursion path always suffices. -/
theorem calculate_depth_total : ∀ (fuel : Nat) (id : String) (pm : PMap) (memo : Memo)
    (visited diags : List String), unvisitedCount pm visited < fuel →
    ∃ r, calculate_depth fuel id pm memo visited diags = some r := by
  intro fuel
  induction fuel with
  | zero => intro _ _ _ _ _ h; omega
  | succ fuel ih =>
    intro id pm memo vis diags hlt
    rw [calculate_depth_succ]
    cases hm : memoLookup memo id with
    | some d => exact ⟨_, rfl⟩
    | none =>
      by_cases hin : id ∈ vis
      · simp only [if_pos hin]; exact ⟨_, rfl⟩
      · by_cases hp : parentsOf pm id = []
        · simp only [if_neg hin, if_pos hp]; exact ⟨_, rfl⟩
        · simp only [if_neg hin, if_neg hp]
          have hkey := mem_keys_of_parentsOf_ne_nil pm id hp
          have hlt2 : unvisitedCount pm (id :: vis) < fuel := by
            have := unvisitedCount_cons_lt pm vis id hkey hin
            omega
          obtain ⟨r', hr'⟩ := depthLoop_total fuel pm
            (fun a b c d h => ih a pm b c d h) (parentsOf pm id)
            ⟨0, memo, id :: vis, diags⟩ (by simpa using hlt2)
          rw [hr']
          exact ⟨_, rfl⟩

/-- Unfolding of the reference depth at positive fuel. -/
theorem mdepthF_succ (pm : PMap) (fuel : Nat) (id : String) :
    mdepthF pm (fuel+1) id = if parentsOf pm id = [] then 1
      else ((parentsOf pm id).foldl (fun acc p => Nat.max acc (mdepthF pm fuel p)) 0) + 1 := by
  cases hps : parentsOf pm id with
  | nil => simp [mdepthF, hps]
  | cons p ps => simp [mdepthF, hps]

/-- Congruence for the running maximum fold. -/
theorem foldl_max_congr (l : List String) (g1 g2 : String → Nat) (b : Nat)
    (h : ∀ q ∈ l, g1 q = g2 q) :
    l.foldl (fun acc p => Nat.max acc (g1 p)) b = l.foldl (fun acc p => Nat.max acc (g2 p)) b := by
  induction l generalizing b with
  | nil => rfl
  | cons a l ih =>
    simp only [List.foldl_cons]
    rw [h a (by simp)]
    exact ih _ (fun q hq => h q (by simp [hq]))

/-- On a ranked index the fuelled reference depth is stable once the fuel
exceeds the rank of the node. -/
theorem mdepthF_stable (pm : PMap) (rank : String → Nat) (hr : Ranked pm rank) :
    ∀ (N : Nat) (id : String) (f1 f2 : Nat), rank id < N → rank id < f1 → rank id < f2 →
      mdepthF pm f1 id = mdepthF pm f2 id := by
  intro N
  induction N using Nat.strong_induction_on with
  | _ N ihN =>
    intro id f1 f2 hN h1 h2
    obtain ⟨g1, rfl⟩ : ∃ g, f1 = g + 1 := ⟨f1 - 1, by omega⟩
    obtain ⟨g2, rfl⟩ : ∃ g, f2 = g + 1 := ⟨f2 - 1, by omega⟩
    rw [mdepthF_succ, mdepthF_succ]
    by_cases hps : parentsOf pm id = []
    · simp [hps]
    · simp only [if_neg hps]
      congr 1
      apply foldl_max_congr
      intro q hq
      have hrq : rank q < rank id := hr id q hq
      exact ihN (rank id) hN q g1 g2 hrq (by omega) (by omega)

/-- Reference depth of a node with no recorded parents. -/
theorem mdepth_eq_one (pm : PMap) (rank : String → Nat) (id : String)
    (hp : parentsOf pm id = []) : mdepth pm rank id = 1 := by
  unfold mdepth
  rw [mdepthF_succ, if_pos hp]

/-- Recurrence of the reference depth at a node with recorded parents. -/
theorem mdepth_parents (pm : PMap) (rank : String → Nat) (hr : Ranked pm rank) (id : String)
    (hp : parentsOf pm id ≠ []) :
    mdepth pm rank id =
      ((parentsOf pm id).foldl (fun acc p => Nat.max acc (mdepth pm rank p)) 0) + 1 := by
  unfold mdepth
  rw [mdepthF_succ, if_neg hp]
  congr 1
  apply foldl_max_congr
  intro q hq
  have hrq : rank q < rank id := hr id q hq
  exact mdepthF_stable pm rank hr (rank id + 1) q (rank id) (rank q + 1)
    (by omega) (by omega) (by omega)

/-- The empty memo table is good. -/
theorem goodMemo_nil (pm : PMap) (rank : String → Nat) : GoodMemo pm rank [] := by
  intro id d h
  cases h

/-- Extending a good memo table with a correct value keeps it good. -/
theorem goodMemo_cons (pm : PMap) (rank : String → Nat) (memo : Memo) (id : String) (d : Nat)
    (hg : GoodMemo pm rank memo) (hd : d = mdepth pm rank id) :
    GoodMemo pm rank ((id, d) :: memo) := by
  intro id' d' h
  simp only [memoLookup] at h
  by_cases hik : id = id'
  · rw [if_pos hik] at h
    cases h
    rw [hd, hik]
  · rw [if_neg hik] at h
    exact hg id' d' h

/-- On a ranked index the depth loop folds the running maximum of the
reference depths of the parents, keeping the memo table good and the
visited set fixed. -/
theorem depthLoop_correct (fuel : Nat) (pm : PMap) (rank : String → Nat)
    (IH : ∀ id memo vis diags r, GoodMemo pm rank memo → (∀ v ∈ vis, rank id < rank v) →
      calculate_depth fuel id pm memo vis diags = some r →
      r.depth = mdepth pm rank id ∧ GoodMemo pm rank r.memo)
    (V : List String) :
    ∀ (ps : List String), (∀ p ∈ ps, ∀ v ∈ V, rank p < rank v) →
    ∀ (x r : DepthRes), x.visited = V → GoodMemo pm rank x.memo →
      ps.foldl (depthStep fuel pm) (some x) = some r →
      r.depth = ps.foldl (fun acc p => Nat.max acc (mdepth pm rank p)) x.depth ∧
        GoodMemo pm rank r.memo := by
  intro ps
  induction ps with
  | nil =>
    intro _ x r hxv hxm h
    simp only [List.foldl_nil, Option.some.injEq] at h
    subst h
    exact ⟨rfl, hxm⟩
  | cons p ps ih =>
    intro hpv x r hxv hxm h
    rw [List.foldl_cons] at h
    cases hc : calculate_depth fuel p pm x.memo x.visited x.diags with
    | none =>
      rw [show depthStep fuel pm (some x) p = none from by simp [depthStep, hc]] at h
      rw [depthFoldl_none] at h
      cases h
    | some r2 =>
      have hstep : depthStep fuel pm (some x) p =
          some ⟨Nat.max x.depth r2.depth, r2.memo, r2.visited, r2.diags⟩ := by
        simp [depthStep, hc]
      rw [hstep] at h
      have hp2 := IH p x.memo x.visited x.diags r2 hxm
        (by rw [hxv]; exact hpv p (by simp)) hc
      have hv2 : r2.visited = x.visited :=
        calculate_depth_visited fuel p pm x.memo x.visited x.diags r2 hc
      have hrec := ih (fun q hq v hv => hpv q (by simp [hq]) v hv)
        ⟨Nat.max x.depth r2.depth, r2.memo, r2.visited, r2.diags⟩ r
        (by simpa [hv2] using hxv) hp2.2 h
      refine ⟨?_, hrec.2⟩
      rw [hrec.1]
      simp only [List.foldl_cons, hp2.1]

/-- Correctness of the depth resolver on a ranked (acyclic) index: any
successful run from a good memo table, below a recursion path of strictly
larger rank, returns the reference depth and keeps the memo table good. -/
theorem calculate_depth_correct (pm : PMap) (rank : String → Nat) (hr : Ranked pm rank) :
    ∀ (fuel : Nat) (id : String) (memo : Memo) (vis diags : List String) (r : DepthRes),
      GoodMemo pm rank memo → (∀ v ∈ vis, rank id < rank v) →
      calculate_depth fuel id pm memo vis diags = some r →
      r.depth = mdepth pm rank id ∧ GoodMemo pm rank r.memo := by
  intro fuel
  induction fuel with
  | zero => intro id memo vis diags r _ _ h; cases h
  | succ fuel ih =>
    intro id memo vis diags r hgm hvis h
    rw [calculate_depth_succ] at h
    split at h
    · next d heq =>
      cases h
      exact ⟨(hgm id d heq).symm ▸ rfl, hgm⟩
    · split at h
      · next hin => exact absurd (hvis id hin) (lt_irrefl _)
      · split at h
        · next hp =>
          cases h
          exact ⟨(mdepth_eq_one pm rank id hp).symm,
            goodMemo_cons pm rank memo id 1 hgm (mdepth_eq_one pm rank id hp).symm⟩
        · next hp =>
          split at h
          · cases h
          · next r' heq =>
            cases h
            have hpv : ∀ p ∈ parentsOf pm id, ∀ v ∈ id :: vis, rank p < rank v := by
              intro p hp' v hv
              have h1 : rank p < rank id := hr id p hp'
              rcases List.mem_cons.mp hv with rfl | hv'
              · exact h1
              · exact Nat.lt_trans h1 (hvis v hv')
            have hloop := depthLoop_correct fuel pm rank
              (fun a b c d e hgm' hvis' hh => ih a b c d e hgm' hvis' hh)
              (id :: vis) (parentsOf pm id) hpv
              ⟨0, memo, id :: vis, diags⟩ r' rfl hgm heq
            have hd : r'.depth + 1 = mdepth pm rank id := by
              rw [mdepth_parents pm rank hr id hp, hloop.1]
            exact ⟨hd, goodMemo_cons pm rank r'.memo id (r'.depth + 1) hloop.2 hd⟩

/-- On a ranked index the top-level depth query returns the reference
depth. -/
theorem depthQ_eq_mdepth (pm : PMap) (rank : String → Nat) (hr : Ranked pm rank)
    (id : String) : depthQ pm id = mdepth pm rank id := by
  have hfuel : unvisitedCount pm [] < fuelBound pm := by
    have := List.length_filter_le (fun k => decide (k ∉ ([] : List String))) (pm.map Prod.fst)
    unfold unvisitedCount fuelBound
    omega
  obtain ⟨r, hrr⟩ := calculate_depth_total (fuelBound pm) id pm [] [] [] hfuel
  unfold depthQ
  rw [hrr]
  exact (calculate_depth_correct pm rank hr (fuelBound pm) id [] [] [] r
    (goodMemo_nil pm rank) (by simp) hrr).1

/-- A fold of the path loop step from an exhausted state stays exhausted. -/
theorem pathFoldl_none (fuel : Nat) (ctp : PMap) (cp vis' : List String) (ps : List String) :
    ps.foldl (pathStep fuel ctp cp vis') none = none := by
  induction ps with
  | nil => rfl
  | cons p ps ih => simpa [pathStep] using ih

/-- The path loop succeeds when every branch succeeds. -/
theorem pathLoop_total (fuel : Nat) (ctp : PMap) (cp vis' : List String)
    (IH : ∀ id cp2, ∃ ps, get_all_paths fuel id ctp cp2 vis' = some ps)
    (parents : List String) :
    ∀ acc, ∃ r, parents.foldl (pathStep fuel ctp cp vis') (some acc) = some r := by
  induction parents with
  | nil => exact fun acc => ⟨acc, rfl⟩
  | cons p ps ih =>
    intro acc
    obtain ⟨bp, hbp⟩ := IH p (cp ++ [p])
    have hstep : pathStep fuel ctp cp vis' (some acc) p = some (acc ++ bp) := by
      simp [pathStep, hbp]
    rw [List.foldl_cons, hstep]
    exact ih _

/-- Totality of the path enumerator under the same fuel bound as the depth
resolver. -/
theorem get_all_paths_total : ∀ (fuel : Nat) (id : String) (ctp : PMap) (cp vis : List String),
    unvisitedCount ctp vis < fuel → ∃ ps, get_all_paths fuel id ctp cp vis = some ps := by
  intro fuel
  induction fuel with
  | zero => intro _ _ _ _ h; omega
  | succ fuel ih =>
    intro id ctp cp vis hlt
    rw [get_all_paths_succ]
    by_cases hin : id ∈ vis
    · simp [hin]
    · by_cases hp : parentsOf ctp id = []
      · simp [hin, hp]
      · simp only [if_neg hin, if_neg hp]
        have hkey := mem_keys_of_parentsOf_ne_nil ctp id hp
        have hlt2 : unvisitedCount ctp (id :: vis) < fuel := by
          have := unvisitedCount_cons_lt ctp vis id hkey hin
          omega
        exact pathLoop_total fuel ctp cp (id :: vis)
          (fun q cp2 => ih q ctp cp2 (id :: vis) hlt2) (parentsOf ctp id) []

/-- The path loop appends, to the accumulator, only branch results that
are non-empty and extend the current path. -/
theorem pathLoop_props (fuel : Nat) (ctp : PMap) (cp vis' : List String)
    (IH : ∀ id cp2 ps, get_all_paths fuel id ctp cp2 vis' = some ps →
      ps ≠ [] ∧ ∀ q ∈ ps, ∃ t, q = cp2 ++ t) :
    ∀ (parents : List String) (acc r : List (List String)),
      parents.foldl (pathStep fuel ctp cp vis') (some acc) = some r →
      ∃ s, r = acc ++ s ∧ (∀ q ∈ s, ∃ t, q = cp ++ t) ∧ (parents ≠ [] → s ≠ []) := by
  intro parents
  induction parents with
  | nil =>
    intro acc r h
    simp only [List.foldl_nil, Option.some.injEq] at h
    exact ⟨[], by simp [h], by simp, fun hc => absurd rfl hc⟩
  | cons p ps ih =>
    intro acc r h
    rw [List.foldl_cons] at h
    cases hb : get_all_paths fuel p ctp (cp ++ [p]) vis' with
    | none =>
      rw [show pathStep fuel ctp cp vis' (some acc) p = none from by simp [pathStep, hb]] at h
      rw [pathFoldl_none] at h
      cases h
    | some bp =>
      have hstep : pathStep fuel ctp cp vis' (some acc) p = some (acc ++ bp) := by
        simp [pathStep, hb]
      rw [hstep] at h
      obtain ⟨hbne, hbext⟩ := IH p (cp ++ [p]) bp hb
      obtain ⟨s, hr, hs, _⟩ := ih (acc ++ bp) r h
      refine ⟨bp ++ s, by simp [hr], ?_, ?_⟩
      · intro q hq
        rcases List.mem_append.mp hq with hq | hq
        · obtain ⟨t, ht⟩ := hbext q hq
          exact ⟨[p] ++ t, by simp [ht]⟩
        · exact hs q hq
      · intro _
        simp [hbne]

/-- Every successful enumeration is non-empty and every returned path
extends the accumulated path. -/
theorem get_all_paths_props : ∀ (fuel : Nat) (id : String) (ctp : PMap)
    (cp vis : List String) (ps : List (List String)),
    get_all_paths fuel id ctp cp vis = some ps →
    ps ≠ [] ∧ ∀ q ∈ ps, ∃ t, q = cp ++ t := by
  intro fuel
  induction fuel with
  | zero => intro _ _ _ _ _ h; cases h
  | succ fuel ih =>
    intro id ctp cp vis ps h
    rw [get_all_paths_succ] at h
    split at h
    · simp only [Option.some.injEq] at h
      subst h
      exact ⟨by simp, by simp⟩
    · split at h
      · simp only [Option.some.injEq] at h
        subst h
        exact ⟨by simp, by simp⟩
      · next hin hp =>
        obtain ⟨s, hr, hs, hne⟩ := pathLoop_props fuel ctp cp (id :: vis)
          (fun a b c hh => ih a ctp b (id :: vis) c hh) (parentsOf ctp id) [] ps h
        subst hr
        exact ⟨by simpa using hne hp, by simpa using hs⟩

/-- The path loop preserves the closure property of completed paths, given
that the visited set is contained in the current path. -/
theorem pathLoop_last (fuel : Nat) (ctp : PMap) (cp vis' : List String)
    (IH : ∀ id cp2 ps, cp2 ≠ [] → cp2.getLast? = some id →
      (∀ v ∈ vis', v ∈ cp2.dropLast) →
      get_all_paths fuel id ctp cp2 vis' = some ps →
      ∀ q ∈ ps, ∃ last, q.getLast? = some last ∧
        (parentsOf ctp last = [] ∨ last ∈ q.dropLast))
    (hv : ∀ v ∈ vis', v ∈ cp) :
    ∀ (parents : List String) (acc r : List (List String)),
      parents.foldl (pathStep fuel ctp cp vis') (some acc) = some r →
      (∀ q ∈ acc, ∃ last, q.getLast? = some last ∧
        (parentsOf ctp last = [] ∨ last ∈ q.dropLast)) →
      ∀ q ∈ r, ∃ last, q.getLast? = some last ∧
        (parentsOf ctp last = [] ∨ last ∈ q.dropLast) := by
  intro parents
  induction parents with
  | nil =>
    intro acc r h hacc
    simp only [List.foldl_nil, Option.some.injEq] at h
    subst h
    exact hacc
  | cons p ps ih =>
    intro acc r h hacc
    rw [List.foldl_cons] at h
    cases hb : get_all_paths fuel p ctp (cp ++ [p]) vis' with
    | none =>
      rw [show pathStep fuel ctp cp vis' (some acc) p = none from by simp [pathStep, hb]] at h
      rw [pathFoldl_none] at h
      cases h
    | some bp =>
      have hstep : pathStep fuel ctp cp vis' (some acc) p = some (acc ++ bp) := by
        simp [pathStep, hb]
      rw [hstep] at h
      have hbp := IH p (cp ++ [p]) bp (by simp) (List.getLast?_concat cp)
        (by intro v hvv; rw [List.dropLast_concat]; exact hv v hvv) hb
      refine ih (acc ++ bp) r h ?_
      intro q hq
      rcases List.mem_append.mp hq with hq | hq
      · exact hacc q hq
      · exact hbp q hq

/-- Every completed path either ends at a node with no recorded parents
or closes a cycle by repeating an earlier element of the same path. -/
theorem get_all_paths_last : ∀ (fuel : Nat) (id : String) (ctp : PMap)
    (cp vis : List String) (ps : List (List String)),
    cp ≠ [] → cp.getLast? = some id → (∀ v ∈ vis, v ∈ cp.dropLast) →
    get_all_paths fuel id ctp cp vis = some ps →
    ∀ q ∈ ps, ∃ last, q.getLast? = some last ∧
      (parentsOf ctp last = [] ∨ last ∈ q.dropLast) := by
  intro fuel
  induction fuel with
  | zero => intro _ _ _ _ _ _ _ _ h; cases h
  | succ fuel ih =>
    intro id ctp cp vis ps hcp hlast hvis h
    rw [get_all_paths_succ] at h
    split at h
    · next hin =>
      simp only [Option.some.injEq] at h
      subst h
      intro q hq
      simp only [List.mem_singleton] at hq
      subst hq
      exact ⟨id, hlast, Or.inr (hvis id hin)⟩
    · split at h
      · next hp =>
        simp only [Option.some.injEq] at h
        subst h
        intro q hq
        simp only [List.mem_singleton] at hq
        subst hq
        exact ⟨id, hlast, Or.inl hp⟩
      · next hin hp =>
        have hv : ∀ v ∈ id :: vis, v ∈ cp := by
          intro v hvv
          rcases List.mem_cons.mp hvv with rfl | hvv'
          · exact List.mem_of_mem_getLast? hlast
          · exact List.dropLast_subset cp (hvis v hvv')
        exact pathLoop_last fuel ctp cp (id :: vis)
          (fun a b c h1 h2 h3 h4 => ih a ctp b (id :: vis) c h1 h2 h3 h4)
          hv (parentsOf ctp id) [] ps h (by simp)

/-- The path loop concatenates the independent branch enumerations. -/
theorem pathLoop_concat (fuel : Nat) (ctp : PMap) (cp vis' : List String) :
    ∀ (parents : List String) (acc : List (List String)),
      (∀ p ∈ parents, ∃ bp, get_all_paths fuel p ctp (cp ++ [p]) vis' = some bp) →
      parents.foldl (pathStep fuel ctp cp vis') (some acc) =
        some (acc ++ parents.flatMap
          (fun p => (get_all_paths fuel p ctp (cp ++ [p]) vis').getD [])) := by
  intro parents
  induction parents with
  | nil => intro acc _; simp
  | cons p ps ih =>
    intro acc hb
    obtain ⟨bp, hbp⟩ := hb p (by simp)
    have hstep : pathStep fuel ctp cp vis' (some acc) p = some (acc ++ bp) := by
      simp [pathStep, hbp]
    rw [List.foldl_cons, hstep, ih (acc ++ bp) (fun q hq => hb q (by simp [hq]))]
    simp [hbp]

/-- The fallback-free label lookup determines `labelsGet`. -/
theorem labelsGet_eq (labels : List (String × String)) (id : String) :
    labelsGet labels id = (labelFind labels id).getD id := by
  induction labels with
  | nil => rfl
  | cons e rest ih =>
    obtain ⟨k, v⟩ := e
    by_cases hk : k = id
    · simp [labelsGet, labelFind, hk]
    · simp only [labelsGet, labelFind, if_neg hk]
      exact ih

/-- After a set-semantics insertion the inserted parent is recorded. -/
theorem parentsOf_addEdgeSet_self (m : PMap) (c p : String) :
    p ∈ parentsOf (addEdgeSet m c p) c := by
  induction m with
  | nil => simp [addEdgeSet, parentsOf]
  | cons e rest ih =>
    obtain ⟨k, ps⟩ := e
    by_cases hk : k = c
    · subst hk
      simp only [addEdgeSet, if_pos rfl, parentsOf]
      by_cases hp : p ∈ ps
      · simp [hp]
      · simp [hp]
    · simp only [addEdgeSet, if_neg hk, parentsOf, if_neg hk]
      exact ih

/-- Set-semantics insertion never removes a recorded parent. -/
theorem parentsOf_addEdgeSet_mono (m : PMap) (c c' p' x : String)
    (hx : x ∈ parentsOf m c) : x ∈ parentsOf (addEdgeSet m c' p') c := by
  induction m with
  | nil => simp [parentsOf] at hx
  | cons e rest ih =>
    obtain ⟨k, ps⟩ := e
    by_cases hk' : k = c'
    · subst hk'
      simp only [addEdgeSet, if_pos rfl, parentsOf]
      by_cases hk : k = c
      · rw [if_pos hk]
        rw [show parentsOf ((k, ps) :: rest) c = ps from by simp [parentsOf, hk]] at hx
        by_cases hp : p' ∈ ps
        · simpa [hp] using hx
        · simp [hp, hx]
      · rw [if_neg hk]
        rw [show parentsOf ((k, ps) :: rest) c = parentsOf rest c from by
          simp [parentsOf, hk]] at hx
        exact hx
    · simp only [addEdgeSet, if_neg hk', parentsOf]
      by_cases hk : k = c
      · rw [if_pos hk]
        rw [show parentsOf ((k, ps) :: rest) c = ps from by simp [parentsOf, hk]] at hx
        exact hx
      · rw [if_neg hk]
        rw [show parentsOf ((k, ps) :: rest) c = parentsOf rest c from by
          simp [parentsOf, hk]] at hx
        exact ih hx

/-- Set-semantics insertion of an already recorded parent is a no-op. -/
theorem addEdgeSet_mem_noop (m : PMap) (c p : String) (h : p ∈ parentsOf m c) :
    addEdgeSet m c p = m := by
  induction m with
  | nil => simp [parentsOf] at h
  | cons e rest ih =>
    obtain ⟨k, ps⟩ := e
    by_cases hk : k = c
    · subst hk
      rw [show parentsOf ((k, ps) :: rest) k = ps from by simp [parentsOf]] at h
      simp [addEdgeSet, h]
    · rw [show parentsOf ((k, ps) :: rest) c = parentsOf rest c from by
        simp [parentsOf, hk]] at h
      simp [addEdgeSet, hk, ih h]

/-- Folding further edges with set semantics keeps recorded parents. -/
theorem foldl_addEdgeSet_mono (l : List (String × String)) (m : PMap) (c p : String)
    (h : p ∈ parentsOf m c) :
    p ∈ parentsOf (l.foldl (fun m e => addEdgeSet m e.1 e.2) m) c := by
  induction l generalizing m with
  | nil => exact h
  | cons e l ih => exact ih _ (parentsOf_addEdgeSet_mono _ _ _ _ _ h)

/-- The running maximum fold is insensitive to the enumeration order. -/
theorem foldl_max_perm (l1 l2 : List String) (g : String → Nat) (b : Nat)
    (h : l1.Perm l2) :
    l1.foldl (fun acc p => Nat.max acc (g p)) b =
      l2.foldl (fun acc p => Nat.max acc (g p)) b := by
  haveI : RightCommutative (fun (acc : Nat) (p : String) => Nat.max acc (g p)) :=
    ⟨fun b a1 a2 => Nat.max_right_comm b (g a1) (g a2)⟩
  exact h.foldl_eq b

/-- On a ranked index the reference depth only depends on each node's set
of recorded parents, not on their enumeration order. -/
theorem mdepthF_perm (pm1 pm2 : PMap) (rank : String → Nat) (hr : Ranked pm1 rank)
    (hperm : ∀ id, (parentsOf pm1 id).Perm (parentsOf pm2 id)) :
    ∀ (N : Nat) (id : String) (f1 f2 : Nat), rank id < N → rank id < f1 → rank id < f2 →
      mdepthF pm1 f1 id = mdepthF pm2 f2 id := by
  intro N
  induction N using Nat.strong_induction_on with
  | _ N ihN =>
    intro id f1 f2 hN h1 h2
    obtain ⟨g1, rfl⟩ : ∃ g, f1 = g + 1 := ⟨f1 - 1, by omega⟩
    obtain ⟨g2, rfl⟩ : ∃ g, f2 = g + 1 := ⟨f2 - 1, by omega⟩
    rw [mdepthF_succ, mdepthF_succ]
    by_cases hps : parentsOf pm1 id = []
    · have hps2 : parentsOf pm2 id = [] := by
        have := hperm id
        rw [hps] at this
        exact this.nil_eq.symm
      simp [hps, hps2]
    · have hps2 : parentsOf pm2 id ≠ [] := by
        intro hc
        have := hperm id
        rw [hc] at this
        exact hps this.eq_nil
      rw [if_neg hps, if_neg hps2]
      congr 1
      rw [foldl_max_congr (parentsOf pm1 id) (fun p => mdepthF pm1 g1 p)
        (fun p => mdepthF pm2 g2 p) 0 ?_]
      · exact foldl_max_perm _ _ _ 0 (hperm id)
      · intro q hq
        have hrq : rank q < rank id := hr id q hq
        exact ihN (rank id) hN q g1 g2 hrq (by omega) (by omega)

/-- Fuel bound for a fresh top-level query. -/
theorem unvisitedCount_nil_lt (pm : PMap) : unvisitedCount pm [] < fuelBound pm := by
  have := List.length_filter_le (fun k => decide (k ∉ ([] : List String))) (pm.map Prod.fst)
  unfold unvisitedCount fuelBound
  omega

/-- The chain index `pmChain` is ranked by `rankChain`. -/
theorem rankChain_ranked : Ranked pmChain rankChain := by
  intro c p hp
  by_cases hc : ("B" : String) = c
  · subst hc
    rw [show parentsOf pmChain "B" = ["A"] from by decide] at hp
    simp only [List.mem_singleton] at hp
    subst hp
    decide
  · rw [show parentsOf pmChain c = [] from by simp [pmChain, parentsOf, hc]] at hp
    cases hp

/-- C1: on an acyclic edge index, `depth` of a node with no recorded
parents is 1, and `depth` of a node with recorded parents is 1 plus the
maximum of the depths of its parents. -/
theorem c1_depth_recurrence (pm : PMap) (rank : String → Nat) (hr : Ranked pm rank)
    (node : String) :
    (parentsOf pm node = [] → depthQ pm node = 1) ∧
    (parentsOf pm node ≠ [] →
      depthQ pm node = 1 + ((parentsOf pm node).map (depthQ pm)).foldl Nat.max 0) := by
  constructor
  · intro hp
    rw [depthQ_eq_mdepth pm rank hr node, mdepth_eq_one pm rank node hp]
  · intro hp
    have hcore : (parentsOf pm node).foldl (fun acc p => Nat.max acc (mdepth pm rank p)) 0 =
        ((parentsOf pm node).map (depthQ pm)).foldl Nat.max 0 := by
      rw [List.foldl_map]
      apply foldl_max_congr
      intro q _
      exact (depthQ_eq_mdepth pm rank hr q).symm
    rw [depthQ_eq_mdepth pm rank hr node, mdepth_parents pm rank hr node hp, hcore]
    omega

/-- Witness for C1 on the chain index with the single edge B to A. -/
theorem c1_depth_recurrence_witness :
    depthQ pmChain "B" = 1 + ((parentsOf pmChain "B").map (depthQ pmChain)).foldl Nat.max 0 :=
  (c1_depth_recurrence pmChain rankChain rankChain_ranked "B").2 (by decide)

/-- C2 counterexample: on the two-edge cycle X to Y to X, querying X first
yields depth 3, which is neither 1 nor 2 as the claim states. -/
theorem c2_counterexample :
    calculate_depth (fuelBound pmXY) "X" pmXY [] [] [] =
      some ⟨3, [("X", 3), ("Y", 2)], [], [cycleWarning "X"]⟩ ∧
    ¬ ((3 : Nat) = 1 ∨ (3 : Nat) = 2) := by
  exact ⟨by decide, by decide⟩

/-- C2 amended: on the two-edge cycle, `depth(X)` terminates with the
finite value 3 when X is queried first and 2 when Y is queried first (the
memo being shared between the two queries), and a cycle diagnostic is
recorded during each resolution. -/
theorem c2_cycle_contained :
    calculate_depth (fuelBound pmXY) "X" pmXY [] [] [] =
      some ⟨3, [("X", 3), ("Y", 2)], [], [cycleWarning "X"]⟩ ∧
    calculate_depth (fuelBound pmXY) "Y" pmXY [] [] [] =
      some ⟨3, [("Y", 3), ("X", 2)], [], [cycleWarning "Y"]⟩ ∧
    (calculate_depth (fuelBound pmXY) "Y" pmXY [] [] []).bind
        (fun r => calculate_depth (fuelBound pmXY) "X" pmXY r.memo [] r.diags) =
      some ⟨2, [("Y", 3), ("X", 2)], [], [cycleWarning "Y"]⟩ := by
  refine ⟨by decide, by decide, by decide⟩

/-- C3 counterexample: the paths edge index appends duplicate edges (list
semantics), so inserting the same edge twice changes the index and the
enumerated paths. -/
theorem c3_counterexample :
    load_hierarchy [("D", "B"), ("D", "B")] ≠ load_hierarchy [("D", "B")] ∧
    get_all_paths_query "D" (load_hierarchy [("D", "B"), ("D", "B")]) =
      some [["D", "B"], ["D", "B"]] ∧
    get_all_paths_query "D" (load_hierarchy [("D", "B")]) = some [["D", "B"]] := by
  refine ⟨by decide, by decide, by decide⟩

/-- C3 amended: the depth edge index `build_parent_map` is idempotent with
respect to duplicate edges (set semantics): inserting the same (child,
parent) pair a second time, anywhere in the stream, yields the same edge
index as inserting it once.  (`load_hierarchy` is not: see the
counterexample.) -/
theorem c3_build_idempotent (l1 l2 l3 : List (String × String)) (c p : String) :
    build_parent_map (l1 ++ (c, p) :: l2 ++ (c, p) :: l3) =
      build_parent_map (l1 ++ (c, p) :: l2 ++ l3) := by
  unfold build_parent_map
  simp only [List.foldl_append, List.foldl_cons]
  congr 1
  exact addEdgeSet_mem_noop _ c p
    (foldl_addEdgeSet_mono l2 _ c p (parentsOf_addEdgeSet_self _ c p))

/-- C4: the diamond scenario.  Depths are 1, 2, 2, 3 for A, B, C, D, and
the paths of D are exactly the two paths D B A and D C A. -/
theorem c4_diamond :
    depthQ pmD "A" = 1 ∧ depthQ pmD "B" = 2 ∧ depthQ pmD "C" = 2 ∧ depthQ pmD "D" = 3 ∧
    get_all_paths_query "D" ctpD = some [["D", "B", "A"], ["D", "C", "A"]] := by
  refine ⟨by decide, by decide, by decide, by decide, by decide⟩

/-- C5: for every node identifier, also one with no entry in the edge
index, the path query succeeds with a non-empty collection of paths, and
every returned path starts at the queried node. -/
theorem c5_paths_nonempty_head (ctp : PMap) (id : String) :
    ∃ ps, get_all_paths_query id ctp = some ps ∧ ps ≠ [] ∧
      ∀ q ∈ ps, q.head? = some id := by
  obtain ⟨ps, hps⟩ := get_all_paths_total (fuelBound ctp) id ctp [id] []
    (unvisitedCount_nil_lt ctp)
  obtain ⟨hne, hext⟩ := get_all_paths_props (fuelBound ctp) id ctp [id] [] ps hps
  refine ⟨ps, hps, hne, ?_⟩
  intro q hq
  obtain ⟨t, rfl⟩ := hext q hq
  rfl

/-- C6: every returned path ends at a node with no recorded parents or at
a node repeating an earlier element of the same path (cycle closure). -/
theorem c6_path_closure (ctp : PMap) (id : String) (ps : List (List String))
    (h : get_all_paths_query id ctp = some ps) :
    ∀ q ∈ ps, ∃ last, q.getLast? = some last ∧
      (parentsOf ctp last = [] ∨ last ∈ q.dropLast) :=
  get_all_paths_last (fuelBound ctp) id ctp [id] [] ps (by simp) (by simp) (by simp) h

/-- Witness for C6 on the two-edge cycle: the single path X Y X closes the
cycle by repeating X. -/
theorem c6_path_closure_witness :
    (["X", "Y", "X"] : List String).getLast? = some "X" ∧
    (parentsOf ctpXY "X" = [] ∨ "X" ∈ (["X", "Y", "X"] : List String).dropLast) := by
  obtain ⟨last, h1, h2⟩ := c6_path_closure ctpXY "X" [["X", "Y", "X"]] (by decide)
    ["X", "Y", "X"] (by simp)
  have hx : (["X", "Y", "X"] : List String).getLast? = some "X" := by decide
  injection h1.symm.trans hx with hl
  exact ⟨hx, hl ▸ h2⟩

/-- C7: with an unvisited node that has recorded parents, the enumeration
is the concatenation, over the parents in order, of the independent branch
enumerations, each run on its own copy of the extended visited set. -/
theorem c7_branch_independence (fuel : Nat) (id : String) (ctp : PMap)
    (cp vis : List String) (hin : id ∉ vis) (hp : parentsOf ctp id ≠ [])
    (hf : unvisitedCount ctp (id :: vis) < fuel) :
    get_all_paths (fuel+1) id ctp cp vis =
      some ((parentsOf ctp id).flatMap
        (fun p => (get_all_paths fuel p ctp (cp ++ [p]) (id :: vis)).getD [])) := by
  rw [get_all_paths_succ, if_neg hin, if_neg hp]
  rw [pathLoop_concat fuel ctp cp (id :: vis) (parentsOf ctp id) []
    (fun p _ => get_all_paths_total fuel p ctp (cp ++ [p]) (id :: vis) hf)]
  simp

/-- Witness for C7 on the index where the branch through P1 cycles back to
N while the branch through P2 reaches the root R. -/
theorem c7_branch_independence_witness :
    get_all_paths 4 "N" ctpW ["N"] [] =
      some ((parentsOf ctpW "N").flatMap
        (fun p => (get_all_paths 3 p ctpW (["N"] ++ [p]) ("N" :: [])).getD [])) :=
  c7_branch_independence 3 "N" ctpW ["N"] [] (by decide) (by decide) (by decide)

/-- The two-parent index `pm1w` is ranked by `rankChain`. -/
theorem rank_pm1w : Ranked pm1w rankChain := by
  intro c p hp
  by_cases hc : ("B" : String) = c
  · subst hc
    rw [show parentsOf pm1w "B" = ["A", "C"] from by decide] at hp
    rcases List.mem_cons.mp hp with rfl | hp'
    · decide
    · simp only [List.mem_singleton] at hp'
      subst hp'
      decide
  · rw [show parentsOf pm1w c = [] from by simp [pm1w, parentsOf, hc]] at hp
    cases hp

/-- The indices `pm1w` and `pm2w` record the same parent sets, enumerated
in opposite orders. -/
theorem perm_pm1w_pm2w : ∀ id, (parentsOf pm1w id).Perm (parentsOf pm2w id) := by
  intro id
  by_cases hc : ("B" : String) = id
  · subst hc
    rw [show parentsOf pm1w "B" = ["A", "C"] from by decide,
        show parentsOf pm2w "B" = ["C", "A"] from by decide]
    decide
  · rw [show parentsOf pm1w id = [] from by simp [pm1w, parentsOf, hc],
        show parentsOf pm2w id = [] from by simp [pm2w, parentsOf, hc]]

/-- C8 counterexample: on a cyclic index, enumerating the parents of A in
the opposite order changes the depth of A (5 against 4), although every
node has the same parent set in both indices. -/
theorem c8_counterexample :
    cpm1.map Prod.fst = cpm2.map Prod.fst ∧
    (parentsOf cpm1 "A").Perm (parentsOf cpm2 "A") ∧
    parentsOf cpm1 "X" = parentsOf cpm2 "X" ∧
    parentsOf cpm1 "P" = parentsOf cpm2 "P" ∧
    parentsOf cpm1 "B" = parentsOf cpm2 "B" ∧
    depthQ cpm1 "A" = 5 ∧ depthQ cpm2 "A" = 4 := by
  refine ⟨by decide, by decide, by decide, by decide, by decide, by decide, by decide⟩

/-- C8 amended: on an acyclic edge index the depth query is invariant to
the enumeration order of every node's parent set. -/
theorem c8_order_invariant_acyclic (pm1 pm2 : PMap) (rank : String → Nat)
    (hr : Ranked pm1 rank)
    (hperm : ∀ id, (parentsOf pm1 id).Perm (parentsOf pm2 id)) (node : String) :
    depthQ pm1 node = depthQ pm2 node := by
  have hr2 : Ranked pm2 rank := fun c p hp => hr c p ((hperm c).mem_iff.mpr hp)
  rw [depthQ_eq_mdepth pm1 rank hr node, depthQ_eq_mdepth pm2 rank hr2 node]
  unfold mdepth
  exact mdepthF_perm pm1 pm2 rank hr hperm (rank node + 1) node _ _
    (by omega) (by omega) (by omega)

/-- Witness for the amended C8 on the two-parent index. -/
theorem c8_order_invariant_acyclic_witness : depthQ pm1w "B" = depthQ pm2w "B" :=
  c8_order_invariant_acyclic pm1w pm2w rankChain rank_pm1w perm_pm1w_pm2w "B"

/-- C9: the label resolver returns the recorded label when one exists and
falls back to the raw identifier otherwise, and the path formatter joins
the labels in path order with the separator; in particular formatting the
path B A against the table mapping A to Root Skill yields the stated
string. -/
theorem c9_label_fallback_and_format (labels : List (String × String)) (id : String) :
    (labelFind labels id = none → labelsGet labels id = id) ∧
    (∀ v, labelFind labels id = some v → labelsGet labels id = v) ∧
    hierarchy_path demoLabels ["B", "A"] = "B ; Root Skill" := by
  refine ⟨?_, ?_, by decide⟩
  · intro h
    rw [labelsGet_eq, h]
    rfl
  · intro v h
    rw [labelsGet_eq, h]
    rfl

/-- Witness for C9: the fallback on the unlabelled B and the recorded
label of A. -/
theorem c9_label_fallback_and_format_witness :
    labelsGet demoLabels "B" = "B" ∧ labelsGet demoLabels "A" = "Root Skill" :=
  ⟨(c9_label_fallback_and_format demoLabels "B").1 (by decide),
   (c9_label_fallback_and_format demoLabels "A").2.1 "Root Skill" (by decide)⟩

/-- C10: the depth resolver restores the recursion-path set on every
successful return: called with a visited set not containing the node, it
hands back exactly that visited set. -/
theorem c10_visited_restored (fuel : Nat) (id : String) (pm : PMap) (memo : Memo)
    (visited diags : List String) (r : DepthRes) (hnot : id ∉ visited)
    (h : calculate_depth fuel id pm memo visited diags = some r) :
    r.visited = visited :=
  calculate_depth_visited fuel id pm memo visited diags r h

/-- Witness for C10 on the two-edge cycle query of X. -/
theorem c10_visited_restored_witness :
    DepthRes.visited ⟨3, [("X", 3), ("Y", 2)], [], [cycleWarning "X"]⟩ = [] :=
  c10_visited_restored 3 "X" pmXY [] [] [] _ (by decide) (by decide)
